import Mathlib

/-!
Verification development for the agent-discovery repository: a shallow
embedding, in Lean 4, of the concurrent multi-peer aggregation engine
(query fan-out merge, publish fan-out acknowledgment aggregation,
replaceable-record resolution, and weighted trust scoring), together
with theorems settling the specification's claims about it.

Modelling conventions:
- JavaScript numbers that only ever hold integers (timestamps, kinds,
  counts) are embedded as Int/Nat; the trust weights (1.5, 1.2, 1.0,
  0.8) and the score accumulator are embedded as Rat, which agrees
  with the JavaScript float computation at every value the code can
  produce here (all weights and their sums-of-tens are exactly
  representable and Math.round is exact on them).
- JavaScript string-template interpolation of possibly-null/undefined
  values is embedded with the JsVal type below.
- The asynchronous per-peer interactions are embedded by giving each
  peer an explicit inbound message list (the messages its socket
  delivers before the per-peer timeout / close); Promise.allSettled
  preserves the order of the input array regardless of completion
  timing, so aggregation is a fold over the peer list.
-/

namespace AgentDiscovery

/-- A JavaScript value that is either a string, null, or undefined;
used where the source stores null-initialised fields that string
interpolation later renders as "null" / "undefined". -/
inductive JsVal where
  | null
  | undef
  | str (s : String)
deriving DecidableEq, Repr

/-- JavaScript template-literal rendering of a JsVal. -/
def jsTemplate : JsVal → String
  | JsVal.null => "null"
  | JsVal.undef => "undefined"
  | JsVal.str s => s

/-- A Nostr event as consumed by the engine (src/lib: query, trust,
relay). Tags are an ordered sequence of ordered string sequences. -/
structure NEvent where
  id : String
  pubkey : String
  created_at : Int
  kind : Int
  tags : List (List String)
  content : String
deriving DecidableEq, Repr

/-- src/lib/constants.js: kind 38990, parameterized replaceable
service announcements. -/
def SERVICE_KIND : Int := 38990

/-- src/lib/constants.js: NIP-32 label kind for attestations. -/
def ATTESTATION_KIND : Int := 1985

/-- src/lib/constants.js: the ai.wot namespace label. -/
def WOT_NAMESPACE : String := "ai.wot"

/-- src/lib/constants.js TRUST_WEIGHTS table, as a partial lookup
(none models the absent-property / undefined case of a JS object
lookup at an unknown key). -/
def TRUST_WEIGHTS (t : String) : Option ℚ :=
  if t = "service-quality" then some (3/2)
  else if t = "identity-continuity" then some 1
  else if t = "general-trust" then some (4/5)
  else if t = "work-completed" then some (6/5)
  else none

/-- JavaScript Map.prototype.get on a string-keyed insertion-ordered
association list. -/
def mapGet {α : Type} : List (String × α) → String → Option α
  | [], _ => none
  | p :: rest, k => if p.1 = k then some p.2 else mapGet rest k

/-- JavaScript Map.prototype.set: update in place if the key exists
(keeping its position), otherwise append. The maps built below always
have pairwise-distinct keys, for which this is exactly Map semantics. -/
def mapSet {α : Type} : List (String × α) → String → α → List (String × α)
  | [], k, v => [(k, v)]
  | p :: rest, k, v => if p.1 = k then (k, v) :: rest else p :: mapSet rest k v

/-- The parsed-service projection used by the dedup step of
findServices (src/lib/query.js): parseServiceEvent's fields pubkey,
eventId, createdAt and id (the d-tag value; null until a d-tag
assigns tags entry 1, undefined if that entry is missing). -/
structure Service where
  pubkey : String
  eventId : String
  createdAt : Int
  id : JsVal
deriving DecidableEq, Repr

/-- src/lib/parse.js parseServiceEvent, restricted to the fields the
findServices dedup step reads. Every d-tag overwrites the id field
(the switch's break leaves the loop running), so the last d-tag wins. -/
def parseServiceEvent (e : NEvent) : Service :=
  { pubkey := e.pubkey
    eventId := e.id
    createdAt := e.created_at
    id := e.tags.foldl
      (fun acc tag =>
        if tag[0]? = some "d" then
          match tag[1]? with
          | some s => JsVal.str s
          | none => JsVal.undef
        else acc)
      JsVal.null }

/-- The dedup key of src/lib/query.js line 64: the template string
combining pubkey and d-tag id. -/
def svcKey (s : Service) : String := s.pubkey ++ ":" ++ jsTemplate s.id

/-- One iteration of the findServices dedup loop
(src/lib/query.js lines 63-69). -/
def dedupStep (m : List (String × Service)) (svc : Service) : List (String × Service) :=
  match mapGet m (svcKey svc) with
  | none => mapSet m (svcKey svc) svc
  | some existing =>
      if existing.createdAt < svc.createdAt then mapSet m (svcKey svc) svc else m

/-- The replaceable-record resolution of findServices
(src/lib/query.js lines 61-70): keep only the latest record per
pubkey + d-tag, returning the map's values in insertion order. -/
def resolveLatest (services : List Service) : List Service :=
  (services.foldl dedupStep []).map (fun p => p.2)

/-- An inbound relay message after JSON parsing, as discriminated by
the handlers in src/lib/relay.js: an EVENT for a subscription, an
EOSE terminal signal, an OK publish acknowledgment (event id,
accept/reject flag, optional reason), or anything else (unparseable
or unrecognised data, which every handler ignores). -/
inductive RelayMsg where
  | evt (sub : String) (e : NEvent)
  | eose (sub : String)
  | ok (eid : String) (accepted : Bool) (reason : Option String)
  | malformed
deriving DecidableEq, Repr

/-- The message loop of queryRelay (src/lib/relay.js lines 270-296):
keep verified events for the local subscription id, stop at that
subscription's EOSE, ignore everything else. The end of the list
models the per-peer timeout or an unexpected close, both of which
resolve with the partial results collected so far. -/
def collectEvents (verify : NEvent → Bool) (subId : String) : List RelayMsg → List NEvent
  | [] => []
  | RelayMsg.evt s e :: rest =>
      if s = subId then
        if verify e then e :: collectEvents verify subId rest
        else collectEvents verify subId rest
      else collectEvents verify subId rest
  | RelayMsg.eose s :: rest =>
      if s = subId then [] else collectEvents verify subId rest
  | RelayMsg.ok _ _ _ :: rest => collectEvents verify subId rest
  | RelayMsg.malformed :: rest => collectEvents verify subId rest

/-- queryRelay (src/lib/relay.js lines 254-300): a peer whose
connection attempt fails (none) contributes the empty list; a
connected peer contributes its collected, verified events. The
function is total: no input raises. -/
def queryRelay (verify : NEvent → Bool) (subId : String) :
    Option (List RelayMsg) → List NEvent
  | none => []
  | some msgs => collectEvents verify subId msgs

/-- One iteration of the queryRelays dedup-merge loop
(src/lib/relay.js lines 315-319): skip an already-seen event id,
otherwise record the id and append the event. -/
def mergeStep (acc : List String × List NEvent) (e : NEvent) :
    List String × List NEvent :=
  if e.id ∈ acc.1 then acc else (e.id :: acc.1, acc.2 ++ [e])

/-- queryRelays (src/lib/relay.js lines 305-325): query every peer,
then merge the per-peer results in peer order with first-wins
deduplication by event id. Promise.allSettled keeps the peers-array
order, and queryRelay never rejects, so every result is fulfilled. -/
def queryRelays (verify : NEvent → Bool) (subId : String)
    (peers : List (Option (List RelayMsg))) : List NEvent :=
  let results := peers.map (queryRelay verify subId)
  (results.foldl (fun acc evs => evs.foldl mergeStep acc) ([], [])).2

/-- Specification-style first-occurrence-wins dedup by event id,
relative to a set of already-seen ids; used to state what the
queryRelays merge computes. -/
def dedupById (seen : List String) : List NEvent → List NEvent
  | [] => []
  | e :: es =>
      if e.id ∈ seen then dedupById seen es
      else e :: dedupById (e.id :: seen) es

/-- The seen-id set after running the merge over a list of events. -/
def seenAfter (seen : List String) : List NEvent → List String
  | [] => seen
  | e :: es =>
      if e.id ∈ seen then seenAfter seen es
      else seenAfter (e.id :: seen) es

/-- Extraction of the attestation claim type from NIP-32 tags
(src/lib/trust.js lines 40-46): the first l-tag whose entry 2 is the
ai.wot namespace sets the type to its entry 1 (undefined — none —
when that entry is missing); with no such tag the type stays
"general-trust". -/
def extractType (tags : List (List String)) : Option String :=
  match tags.find? (fun tag =>
      tag[0]? == some "l" && tag[2]? == some WOT_NAMESPACE) with
  | some tag => tag[1]?
  | none => some "general-trust"

/-- The weight assigned to an attestation
(src/lib/trust.js line 48): TRUST_WEIGHTS lookup with JavaScript
or-else-0.8 defaulting (an absent key, an undefined type, and a
falsy-zero weight all fall back to 0.8). -/
def attWeight (tags : List (List String)) : ℚ :=
  match extractType tags with
  | none => 4/5
  | some t =>
      match TRUST_WEIGHTS t with
      | none => 4/5
      | some w => if w = 0 then 4/5 else w

/-- The per-attester record kept in the calculateTrustScore map
(src/lib/trust.js lines 52-56). -/
structure AttInfo where
  weight : ℚ
  type : Option String
  createdAt : Int
deriving DecidableEq, Repr

/-- One iteration of the calculateTrustScore loop
(src/lib/trust.js lines 35-58): skip self-attestations; otherwise
keep the attestation iff the attester is new or strictly
higher-weighted than the attester's current entry. -/
def trustStep (targetPubkey : String) (m : List (String × AttInfo)) (e : NEvent) :
    List (String × AttInfo) :=
  if e.pubkey = targetPubkey then m
  else
    let w := attWeight e.tags
    match mapGet m e.pubkey with
    | none => mapSet m e.pubkey ⟨w, extractType e.tags, e.created_at⟩
    | some existing =>
        if existing.weight < w then
          mapSet m e.pubkey ⟨w, extractType e.tags, e.created_at⟩
        else m

/-- One entry of the per-attester detail list returned by
calculateTrustScore (src/lib/trust.js lines 68-72). -/
structure TrustDetail where
  pubkey : String
  type : Option String
  weight : ℚ
deriving DecidableEq, Repr

/-- The trust-score value returned by calculateTrustScore
(src/lib/trust.js lines 65-73). -/
structure TrustScore where
  score : Int
  attesters : Nat
  details : List TrustDetail
deriving DecidableEq, Repr

/-- JavaScript Math.round: floor of the argument plus one half. -/
def jsRound (q : ℚ) : Int := ⌊q + 1/2⌋

/-- calculateTrustScore (src/lib/trust.js lines 32-74): fold the
attestations into a per-attester best-entry map, then sum ten times
each retained weight, round, and report the map's size and entries. -/
def calculateTrustScore (attestations : List NEvent) (targetPubkey : String) :
    TrustScore :=
  let attesters := attestations.foldl (trustStep targetPubkey) []
  { score := jsRound ((attesters.map (fun p => p.2.weight * 10)).sum)
    attesters := attesters.length
    details := attesters.map (fun p => ⟨p.1, p.2.type, p.2.weight⟩) }

/-- The zero trust score used when an owner has no entry in the trust
map (src/lib/trust.js line 92). -/
def zeroTrust : TrustScore := { score := 0, attesters := 0, details := [] }

/-- JavaScript array-spread of a Set built from a list: insertion
order with first occurrence kept (src/lib/trust.js line 81). -/
def dedupStrings (l : List String) : List String :=
  l.foldl (fun acc x => if x ∈ acc then acc else acc ++ [x]) []

/-- A service record enriched with its trust score
(src/lib/trust.js lines 93-97). -/
structure EnrichedService where
  service : Service
  trust : TrustScore
  trustScore : Int
deriving DecidableEq, Repr

/-- The trust map built by the settled per-pubkey fetch tasks of
enrichWithTrust (src/lib/trust.js lines 84-89): a pubkey whose
attestation fetch fails (none) never reaches its map-set call; a
successful fetch stores that pubkey's computed score. The fetch
outcome per pubkey is deterministic, so completion order does not
affect the map's content. -/
def buildTrustMap (fetch : String → Option (List NEvent)) (pubkeys : List String) :
    List (String × TrustScore) :=
  pubkeys.foldl
    (fun m pk =>
      match fetch pk with
      | none => m
      | some atts => mapSet m pk (calculateTrustScore atts pk))
    []

/-- enrichWithTrust (src/lib/trust.js lines 80-99): fetch attestation
scores for the distinct pubkeys, then attach to every service its
score by pubkey lookup, defaulting to the zero score. -/
def enrichWithTrust (fetch : String → Option (List NEvent)) (services : List Service) :
    List EnrichedService :=
  let pubkeys := dedupStrings (services.map (fun s => s.pubkey))
  let trustMap := buildTrustMap fetch pubkeys
  services.map (fun s =>
    let trust := (mapGet trustMap s.pubkey).getD zeroTrust
    { service := s, trust := trust, trustScore := trust.score })

/-- JavaScript or-else on an optional string, where both a missing
value and the empty string are falsy (src/lib/relay.js line 350). -/
def jsOrStr (v : Option String) (d : String) : String :=
  match v with
  | none => d
  | some s => if s = "" then d else s

/-- The acknowledgment wait of publishToRelays
(src/lib/relay.js lines 341-354): the first OK-typed message resolves
the peer — accept on a true flag, reject with the relay reason (or a
default) on a false flag; the message's event id field is never
consulted. The end of the list models the per-peer timeout, which
rejects with a timeout reason. -/
def awaitOk (url : String) : List RelayMsg → Except String Unit
  | [] => Except.error ("Publish to " ++ url ++ " timed out")
  | RelayMsg.ok _ accepted reason :: _ =>
      if accepted then Except.ok ()
      else Except.error (jsOrStr reason "Rejected by relay")
  | RelayMsg.evt _ _ :: rest => awaitOk url rest
  | RelayMsg.eose _ :: rest => awaitOk url rest
  | RelayMsg.malformed :: rest => awaitOk url rest

/-- The observable behaviour of one peer during a publish: the
connection attempt fails with an error message, or it succeeds and
the socket then delivers the given inbound messages. -/
inductive PeerConn where
  | connFail (errMsg : String)
  | conn (msgs : List RelayMsg)
deriving DecidableEq, Repr

/-- The per-peer task of publishToRelays (src/lib/relay.js lines
333-363): a failed connect rejects with the connection error text; a
successful connect sends the event and waits for an acknowledgment.
The published event does not influence which acknowledgment is
accepted. -/
def publishToRelay (event : NEvent) (url : String) (p : PeerConn) :
    Except String Unit :=
  match p with
  | PeerConn.connFail msg => Except.error msg
  | PeerConn.conn msgs => awaitOk url msgs

/-- The aggregated publish outcome (src/lib/relay.js line 371). -/
structure PublishOutcome where
  successes : Nat
  failures : List String
  total : Nat
deriving DecidableEq, Repr

/-- publishToRelays (src/lib/relay.js lines 331-372): run the per-peer
tasks, count the fulfilled ones, collect the rejection reasons in
peer order, and report the peer count. The function is total: it
never raises, whatever the peers do. -/
def publishToRelays (event : NEvent) (peers : List (String × PeerConn)) :
    PublishOutcome :=
  let results := peers.map (fun p => publishToRelay event p.1 p.2)
  { successes := (results.filter (fun r =>
      match r with
      | Except.ok _ => true
      | Except.error _ => false)).length
    failures := results.filterMap (fun r =>
      match r with
      | Except.error msg => some msg
      | Except.ok _ => none)
    total := peers.length }

/-- A NIP-32 ai.wot attestation event as built throughout the
repository's tests and README: an L namespace tag, an l claim-type
tag, and a p target tag. -/
def mkAttestation (attester claimType target : String) : NEvent :=
  { id := attester ++ ":att", pubkey := attester, created_at := 0,
    kind := ATTESTATION_KIND,
    tags := [["L", WOT_NAMESPACE], ["l", claimType, WOT_NAMESPACE], ["p", target]],
    content := "" }

/-- One step of the per-attester best-entry selection: the
keep-if-strictly-heavier rule of trustStep restricted to a single
attester's stream of attestations; used to characterise what the
trust fold retains per attester. -/
def entryStep (acc : Option AttInfo) (e : NEvent) : Option AttInfo :=
  match acc with
  | none => some ⟨attWeight e.tags, extractType e.tags, e.created_at⟩
  | some ex =>
      if ex.weight < attWeight e.tags then
        some ⟨attWeight e.tags, extractType e.tags, e.created_at⟩
      else some ex

/-- Running maximum of a list of weights with first-wins ties,
mirroring the weight component of entryStep. -/
def jmax (acc : Option ℚ) (ws : List ℚ) : Option ℚ :=
  ws.foldl
    (fun o w =>
      match o with
      | none => some w
      | some x => if x < w then some w else some x)
    acc

/-- A concrete older record used to witness C1. -/
def svcW1 : Service :=
  { pubkey := "p", eventId := "e1", createdAt := 5, id := JsVal.str "d" }

/-- A concrete newer record with the same identity, witnessing C1. -/
def svcW2 : Service :=
  { pubkey := "p", eventId := "e2", createdAt := 9, id := JsVal.str "d" }

/-- Concrete event a, used to witness the query-merge claims. -/
def evA : NEvent :=
  { id := "a", pubkey := "p1", created_at := 1, kind := 38990, tags := [], content := "" }

/-- Concrete event b, used to witness the query-merge claims. -/
def evB : NEvent :=
  { id := "b", pubkey := "p2", created_at := 2, kind := 38990, tags := [], content := "" }

/-- Whether an inbound message is an OK acknowledgment; used to state
which messages the publish wait loop skips. -/
def RelayMsg.isOkMsg : RelayMsg → Bool
  | RelayMsg.ok _ _ _ => true
  | _ => false

/-- A concrete service record used to witness the trust-enrichment
claim. -/
def svcW3 : Service :=
  { pubkey := "q", eventId := "e3", createdAt := 1, id := JsVal.str "x" }

/-- A concrete record whose publication is used in the
acknowledgment-correlation counterexample. -/
def evC4 : NEvent :=
  { id := "record-1", pubkey := "pub", created_at := 0, kind := SERVICE_KIND,
    tags := [["d", "svc"]], content := "" }

/-- A concrete record published in the publish-outcome example. -/
def evPub : NEvent :=
  { id := "record-2", pubkey := "pub", created_at := 0, kind := SERVICE_KIND,
    tags := [["d", "svc2"]], content := "" }

/-! ### Association-map lemmas -/

theorem mapGet_mapSet_self {α : Type} (m : List (String × α)) (k : String) (v : α) :
    mapGet (mapSet m k v) k = some v := by
  induction m with
  | nil => simp [mapGet, mapSet]
  | cons p rest ih =>
      by_cases h : p.1 = k
      · simp [mapSet, h, mapGet]
      · simp [mapSet, h, mapGet, ih]

theorem mapGet_mapSet_ne {α : Type} (m : List (String × α)) {k k' : String} (v : α)
    (h : k' ≠ k) : mapGet (mapSet m k v) k' = mapGet m k' := by
  induction m with
  | nil => simp [mapGet, mapSet, Ne.symm h]
  | cons p rest ih =>
      by_cases hp : p.1 = k
      · simp [mapSet, hp, mapGet, Ne.symm h]
      · simp [mapSet, hp, mapGet, ih]

theorem mapGet_eq_none_iff {α : Type} (m : List (String × α)) (k : String) :
    mapGet m k = none ↔ k ∉ m.map Prod.fst := by
  induction m with
  | nil => simp [mapGet]
  | cons p rest ih =>
      by_cases hp : p.1 = k
      · simp [mapGet, hp]
      · simp [mapGet, hp, ih, Ne.symm hp]

theorem keys_mapSet_mem {α : Type} (m : List (String × α)) {k : String} (v : α)
    (h : k ∈ m.map Prod.fst) :
    (mapSet m k v).map Prod.fst = m.map Prod.fst := by
  induction m with
  | nil => simp at h
  | cons p rest ih =>
      by_cases hp : p.1 = k
      · simp [mapSet, hp]
      · have h' : k ∈ rest.map Prod.fst := by
          rcases List.mem_map.mp h with ⟨q, hq, hqk⟩
          rcases List.mem_cons.mp hq with hq1 | hq2
          · exact absurd (hq1 ▸ hqk) hp
          · exact List.mem_map.mpr ⟨q, hq2, hqk⟩
        simp [mapSet, hp, ih h']

theorem mapSet_of_not_mem {α : Type} (m : List (String × α)) {k : String} (v : α)
    (h : k ∉ m.map Prod.fst) : mapSet m k v = m ++ [(k, v)] := by
  induction m with
  | nil => simp [mapSet]
  | cons p rest ih =>
      simp only [List.map_cons, List.mem_cons, not_or] at h
      have hp : p.1 ≠ k := fun hh => h.1 hh.symm
      simp [mapSet, hp, ih h.2]

theorem keys_mapSet_not_mem {α : Type} (m : List (String × α)) {k : String} (v : α)
    (h : k ∉ m.map Prod.fst) :
    (mapSet m k v).map Prod.fst = m.map Prod.fst ++ [k] := by
  rw [mapSet_of_not_mem m v h]; simp

theorem nodup_keys_mapSet {α : Type} (m : List (String × α)) (k : String) (v : α)
    (h : (m.map Prod.fst).Nodup) : ((mapSet m k v).map Prod.fst).Nodup := by
  by_cases hk : k ∈ m.map Prod.fst
  · rw [keys_mapSet_mem m v hk]; exact h
  · rw [keys_mapSet_not_mem m v hk]
    refine List.Nodup.append h (List.nodup_singleton k) ?_
    intro a ha hb
    rcases List.mem_singleton.mp hb with rfl
    exact hk ha

theorem mem_of_mapGet {α : Type} {m : List (String × α)} {k : String} {v : α}
    (h : mapGet m k = some v) : (k, v) ∈ m := by
  induction m with
  | nil => simp [mapGet] at h
  | cons p rest ih =>
      by_cases hp : p.1 = k
      · simp only [mapGet, hp, if_pos] at h
        have : p = (k, v) := by
          cases p; cases h; simp_all
        simp [this]
      · simp only [mapGet, hp, if_neg, if_false] at h
        exact List.mem_cons_of_mem _ (ih h)

theorem mapGet_of_mem {α : Type} {m : List (String × α)} {k : String} {v : α}
    (hnd : (m.map Prod.fst).Nodup) (h : (k, v) ∈ m) : mapGet m k = some v := by
  induction m with
  | nil => simp at h
  | cons p rest ih =>
      simp only [List.map_cons, List.nodup_cons] at hnd
      rcases List.mem_cons.mp h with rfl | hmem
      · simp [mapGet]
      · have hk : p.1 ≠ k := by
          intro hpk
          exact hnd.1 (hpk ▸ List.mem_map.mpr ⟨(k, v), hmem, rfl⟩)
        simp [mapGet, hk, ih hnd.2 hmem]

theorem mapGet_ne_none_of_mem_keys {α : Type} {m : List (String × α)} {k : String}
    (h : k ∈ m.map Prod.fst) : mapGet m k ≠ none := by
  rw [Ne, mapGet_eq_none_iff]
  simpa using h

/-! ### Replaceable-record resolution: C1 and C9 -/

theorem dedupFold_invariant :
    ∀ (l pre : List Service) (m : List (String × Service)),
      (m.map Prod.fst).Nodup →
      (∀ k s, mapGet m k = some s → svcKey s = k ∧ s ∈ pre ∧
          ∀ t ∈ pre, svcKey t = k → t.createdAt ≤ s.createdAt) →
      (∀ t ∈ pre, mapGet m (svcKey t) ≠ none) →
      ((l.foldl dedupStep m).map Prod.fst).Nodup ∧
      (∀ k s, mapGet (l.foldl dedupStep m) k = some s → svcKey s = k ∧ s ∈ pre ++ l ∧
          ∀ t ∈ pre ++ l, svcKey t = k → t.createdAt ≤ s.createdAt) ∧
      (∀ t ∈ pre ++ l, mapGet (l.foldl dedupStep m) (svcKey t) ≠ none) := by
  intro l
  induction l with
  | nil =>
      intro pre m h1 h2 h3
      simpa using ⟨h1, h2, h3⟩
  | cons svc rest ih =>
      intro pre m h1 h2 h3
      have step1 : ((dedupStep m svc).map Prod.fst).Nodup := by
        unfold dedupStep
        cases hg : mapGet m (svcKey svc) with
        | none => exact nodup_keys_mapSet _ _ _ h1
        | some existing =>
            by_cases hlt : existing.createdAt < svc.createdAt
            · simpa [hlt] using nodup_keys_mapSet m (svcKey svc) svc h1
            · simpa [hlt] using h1
      have step2 : ∀ k s, mapGet (dedupStep m svc) k = some s →
          svcKey s = k ∧ s ∈ pre ++ [svc] ∧
          ∀ t ∈ pre ++ [svc], svcKey t = k → t.createdAt ≤ s.createdAt := by
        intro k s hks
        cases hg : mapGet m (svcKey svc) with
        | none =>
            simp only [dedupStep, hg] at hks
            by_cases hk : k = svcKey svc
            · subst hk
              rw [mapGet_mapSet_self] at hks
              cases hks
              refine ⟨rfl, by simp, ?_⟩
              intro t ht htk
              rcases List.mem_append.mp ht with htp | hts
              · exact absurd (htk ▸ hg) (h3 t htp)
              · rcases List.mem_singleton.mp hts with rfl
                exact le_refl _
            · rw [mapGet_mapSet_ne m svc hk] at hks
              obtain ⟨hkey, hmem, hmax⟩ := h2 k s hks
              refine ⟨hkey, List.mem_append_left _ hmem, ?_⟩
              intro t ht htk
              rcases List.mem_append.mp ht with htp | hts
              · exact hmax t htp htk
              · rcases List.mem_singleton.mp hts with rfl
                exact absurd htk.symm hk
        | some existing =>
            by_cases hlt : existing.createdAt < svc.createdAt
            · simp only [dedupStep, hg, if_pos hlt] at hks
              by_cases hk : k = svcKey svc
              · subst hk
                rw [mapGet_mapSet_self] at hks
                cases hks
                refine ⟨rfl, by simp, ?_⟩
                intro t ht htk
                rcases List.mem_append.mp ht with htp | hts
                · exact le_of_lt (lt_of_le_of_lt
                    ((h2 _ existing hg).2.2 t htp htk) hlt)
                · rcases List.mem_singleton.mp hts with rfl
                  exact le_refl _
              · rw [mapGet_mapSet_ne m svc hk] at hks
                obtain ⟨hkey, hmem, hmax⟩ := h2 k s hks
                refine ⟨hkey, List.mem_append_left _ hmem, ?_⟩
                intro t ht htk
                rcases List.mem_append.mp ht with htp | hts
                · exact hmax t htp htk
                · rcases List.mem_singleton.mp hts with rfl
                  exact absurd htk.symm hk
            · simp only [dedupStep, hg, if_neg hlt] at hks
              obtain ⟨hkey, hmem, hmax⟩ := h2 k s hks
              refine ⟨hkey, List.mem_append_left _ hmem, ?_⟩
              intro t ht htk
              rcases List.mem_append.mp ht with htp | hts
              · exact hmax t htp htk
              · rcases List.mem_singleton.mp hts with rfl
                have hks' : s = existing := by
                  rw [htk, hks] at hg
                  exact Option.some.inj hg
                subst hks'
                exact not_lt.mp hlt
      have step3 : ∀ t ∈ pre ++ [svc], mapGet (dedupStep m svc) (svcKey t) ≠ none := by
        intro t ht
        have hsvc : mapGet (dedupStep m svc) (svcKey svc) ≠ none := by
          cases hg : mapGet m (svcKey svc) with
          | none => simp [dedupStep, hg, mapGet_mapSet_self]
          | some existing =>
              by_cases hlt : existing.createdAt < svc.createdAt
              · simp [dedupStep, hg, hlt, mapGet_mapSet_self]
              · simp [dedupStep, hg, hlt]
        rcases List.mem_append.mp ht with htp | hts
        · by_cases hk : svcKey t = svcKey svc
          · rw [hk]; exact hsvc
          · have hpresv : mapGet (dedupStep m svc) (svcKey t) = mapGet m (svcKey t) := by
              cases hg : mapGet m (svcKey svc) with
              | none =>
                  simp only [dedupStep, hg]
                  exact mapGet_mapSet_ne m svc hk
              | some existing =>
                  by_cases hlt : existing.createdAt < svc.createdAt
                  · simp only [dedupStep, hg, if_pos hlt]
                    exact mapGet_mapSet_ne m svc hk
                  · simp only [dedupStep, hg, if_neg hlt]
            rw [hpresv]
            exact h3 t htp
        · rcases List.mem_singleton.mp hts with rfl
          exact hsvc
      have res := ih (pre ++ [svc]) (dedupStep m svc) step1 step2 step3
      simpa [List.foldl_cons, List.append_assoc] using res

/-- C1: the replaceable-record resolution of findServices returns at
most one record per (pubkey, d-tag) identity, and the record kept for
an identity has the maximal createdAt among the input records sharing
that identity (the fixed service kind is common to every queried
record). -/
theorem resolveLatest_latest_per_identity (svcs : List Service) :
    (∀ s t, s ∈ resolveLatest svcs → t ∈ resolveLatest svcs →
      s.pubkey = t.pubkey → s.id = t.id → s = t) ∧
    ∀ s ∈ resolveLatest svcs, s ∈ svcs ∧
      ∀ t ∈ svcs, t.pubkey = s.pubkey → t.id = s.id → t.createdAt ≤ s.createdAt := by
  obtain ⟨hnd, hprop, -⟩ := dedupFold_invariant svcs [] []
    (by simp) (by intro k s h; simp [mapGet] at h) (by simp)
  have hget : ∀ s ∈ resolveLatest svcs,
      mapGet (svcs.foldl dedupStep []) (svcKey s) = some s := by
    intro s hs
    rcases List.mem_map.mp hs with ⟨p, hp, rfl⟩
    have h1 := mapGet_of_mem hnd (by simpa using hp)
    have h2 := (hprop p.1 p.2 h1).1
    rw [h2]
    exact h1
  constructor
  · intro s t hs ht hpk hid
    have hkey : svcKey s = svcKey t := by
      unfold svcKey
      rw [hpk, hid]
    have h1 := hget s hs
    have h2 := hget t ht
    rw [hkey, h2] at h1
    cases h1; rfl
  · intro s hs
    have h1 := hget s hs
    obtain ⟨-, hmem, hmax⟩ := hprop (svcKey s) s h1
    refine ⟨by simpa using hmem, ?_⟩
    intro t ht hpk hid
    have hkey : svcKey t = svcKey s := by
      unfold svcKey
      rw [hpk, hid]
    exact hmax t (by simpa using ht) hkey

theorem resolveLatest_keys_nodup (svcs : List Service) :
    ((resolveLatest svcs).map svcKey).Nodup := by
  obtain ⟨hnd, hprop, -⟩ := dedupFold_invariant svcs [] []
    (by simp) (by intro k s h; simp [mapGet] at h) (by simp)
  have : (resolveLatest svcs).map svcKey = (svcs.foldl dedupStep []).map Prod.fst := by
    unfold resolveLatest
    rw [List.map_map]
    refine List.map_congr_left ?_
    intro p hp
    have h1 := mapGet_of_mem hnd hp
    exact (hprop p.1 p.2 h1).1
  rw [this]
  exact hnd

theorem dedupFold_of_fresh_nodup :
    ∀ (l : List Service) (m : List (String × Service)),
      (∀ s ∈ l, svcKey s ∉ m.map Prod.fst) → (l.map svcKey).Nodup →
      l.foldl dedupStep m = m ++ l.map (fun s => (svcKey s, s)) := by
  intro l
  induction l with
  | nil => intro m _ _; simp
  | cons s rest ih =>
      intro m hfresh hnd
      have hs : svcKey s ∉ m.map Prod.fst := hfresh s (by simp)
      have hstep : dedupStep m s = m ++ [(svcKey s, s)] := by
        rw [dedupStep]
        rw [(mapGet_eq_none_iff m (svcKey s)).mpr hs]
        exact mapSet_of_not_mem m s hs
      simp only [List.map_cons, List.nodup_cons] at hnd
      have hfresh' : ∀ t ∈ rest, svcKey t ∉ (m ++ [(svcKey s, s)]).map Prod.fst := by
        intro t ht
        simp only [List.map_append, List.mem_append, List.map_cons, List.map_nil,
          List.mem_singleton, not_or]
        refine ⟨hfresh t (List.mem_cons_of_mem _ ht), ?_⟩
        intro heq
        exact hnd.1 (heq ▸ List.mem_map.mpr ⟨t, ht, rfl⟩)
      calc (s :: rest).foldl dedupStep m
          = rest.foldl dedupStep (m ++ [(svcKey s, s)]) := by
            rw [List.foldl_cons, hstep]
        _ = (m ++ [(svcKey s, s)]) ++ rest.map (fun t => (svcKey t, t)) :=
            ih _ hfresh' hnd.2
        _ = m ++ (s :: rest).map (fun t => (svcKey t, t)) := by simp

theorem resolveLatest_of_nodup_keys (l : List Service)
    (h : (l.map svcKey).Nodup) : resolveLatest l = l := by
  unfold resolveLatest
  rw [dedupFold_of_fresh_nodup l [] (by simp) h]
  simp [Function.comp_def]

/-- C9: the replaceable-record resolution is idempotent — applying it
to its own output returns that output unchanged. -/
theorem resolveLatest_idempotent (x : List Service) :
    resolveLatest (resolveLatest x) = resolveLatest x :=
  resolveLatest_of_nodup_keys _ (resolveLatest_keys_nodup x)

/-- Witness for C1 at a concrete input: of two records sharing an
identity, the newer is retained and dominates the older's createdAt. -/
theorem resolveLatest_latest_per_identity_witness :
    svcW2 ∈ resolveLatest [svcW1, svcW2] ∧ svcW1.createdAt ≤ svcW2.createdAt :=
  ⟨by decide,
   ((resolveLatest_latest_per_identity [svcW1, svcW2]).2 svcW2 (by decide)).2
     svcW1 (by decide) rfl rfl⟩

/-! ### Query fan-out merge: C3 and C5 -/

theorem merge_foldl_eq :
    ∀ (l : List NEvent) (seen : List String) (out : List NEvent),
      l.foldl mergeStep (seen, out) = (seenAfter seen l, out ++ dedupById seen l) := by
  intro l
  induction l with
  | nil => intro seen out; simp [seenAfter, dedupById]
  | cons e es ih =>
      intro seen out
      by_cases h : e.id ∈ seen
      · simp [mergeStep, h, dedupById, seenAfter, ih]
      · simp [mergeStep, h, dedupById, seenAfter, ih]

theorem dedupById_append (l1 l2 : List NEvent) :
    ∀ seen, dedupById seen (l1 ++ l2)
      = dedupById seen l1 ++ dedupById (seenAfter seen l1) l2 := by
  induction l1 with
  | nil => intro seen; simp [dedupById, seenAfter]
  | cons e es ih =>
      intro seen
      by_cases h : e.id ∈ seen
      · simp [dedupById, seenAfter, h, ih]
      · simp [dedupById, seenAfter, h, ih]

theorem seenAfter_append (l1 l2 : List NEvent) :
    ∀ seen, seenAfter seen (l1 ++ l2) = seenAfter (seenAfter seen l1) l2 := by
  induction l1 with
  | nil => intro seen; simp [seenAfter]
  | cons e es ih =>
      intro seen
      by_cases h : e.id ∈ seen
      · simp [seenAfter, h, ih]
      · simp [seenAfter, h, ih]

theorem merge_over_peers :
    ∀ (rs : List (List NEvent)) (seen : List String) (out : List NEvent),
      rs.foldl (fun acc evs => evs.foldl mergeStep acc) (seen, out)
        = (seenAfter seen rs.flatten, out ++ dedupById seen rs.flatten) := by
  intro rs
  induction rs with
  | nil => intro seen out; simp [seenAfter, dedupById]
  | cons r rest ih =>
      intro seen out
      simp only [List.foldl_cons, merge_foldl_eq, ih, List.flatten_cons,
        dedupById_append, seenAfter_append, List.append_assoc]

theorem queryRelays_eq_dedup (verify : NEvent → Bool) (subId : String)
    (peers : List (Option (List RelayMsg))) :
    queryRelays verify subId peers
      = dedupById [] ((peers.map (queryRelay verify subId)).flatten) := by
  simp only [queryRelays, merge_over_peers]
  simp

theorem dedupById_ids_nodup :
    ∀ (l : List NEvent) (seen : List String),
      ((dedupById seen l).map NEvent.id).Nodup ∧
      ∀ e ∈ dedupById seen l, e.id ∉ seen := by
  intro l
  induction l with
  | nil => intro seen; simp [dedupById]
  | cons e es ih =>
      intro seen
      by_cases h : e.id ∈ seen
      · simp only [dedupById, if_pos h]
        exact ih seen
      · simp only [dedupById, if_neg h, List.map_cons, List.nodup_cons]
        obtain ⟨ihnd, ihseen⟩ := ih (e.id :: seen)
        refine ⟨⟨?_, ihnd⟩, ?_⟩
        · intro hmem
          rcases List.mem_map.mp hmem with ⟨e', he', heq⟩
          exact ihseen e' he' (heq ▸ List.mem_cons_self _ _)
        · intro e' he'
          rcases List.mem_cons.mp he' with rfl | he''
          · exact h
          · intro hs
            exact ihseen e' he'' (List.mem_cons_of_mem _ hs)

theorem dedupById_of_disjoint :
    ∀ (l : List NEvent) (seen : List String),
      (l.map NEvent.id).Nodup → (∀ e ∈ l, e.id ∉ seen) →
      dedupById seen l = l := by
  intro l
  induction l with
  | nil => intro seen _ _; rfl
  | cons e es ih =>
      intro seen hnd hfresh
      simp only [List.map_cons, List.nodup_cons] at hnd
      have h : e.id ∉ seen := hfresh e (List.mem_cons_self _ _)
      simp only [dedupById, if_neg h]
      congr 1
      refine ih (e.id :: seen) hnd.2 ?_
      intro e' he'
      simp only [List.mem_cons, not_or]
      refine ⟨?_, hfresh e' (List.mem_cons_of_mem _ he')⟩
      intro heq
      exact hnd.1 (heq ▸ List.mem_map.mpr ⟨e', he', rfl⟩)

theorem seenAfter_mem :
    ∀ (l : List NEvent) (seen : List String) (x : String),
      x ∈ seenAfter seen l ↔ x ∈ seen ∨ x ∈ l.map NEvent.id := by
  intro l
  induction l with
  | nil => intro seen x; simp [seenAfter]
  | cons e es ih =>
      intro seen x
      by_cases h : e.id ∈ seen
      · simp only [seenAfter, if_pos h, ih, List.map_cons, List.mem_cons]
        have hb : x = e.id → x ∈ seen := fun hx => hx ▸ h
        tauto
      · simp only [seenAfter, if_neg h, ih, List.map_cons, List.mem_cons]
        tauto

theorem dedupById_flatten_disjoint :
    ∀ (cs : List (List NEvent)) (seen : List String),
      (∀ c ∈ cs, (c.map NEvent.id).Nodup) →
      List.Pairwise (fun c1 c2 => ∀ e1 ∈ c1, ∀ e2 ∈ c2, e1.id ≠ e2.id) cs →
      (∀ c ∈ cs, ∀ e ∈ c, e.id ∉ seen) →
      dedupById seen cs.flatten = cs.flatten := by
  intro cs
  induction cs with
  | nil => intro seen _ _ _; rfl
  | cons c rest ih =>
      intro seen hnd hpair hfresh
      rcases List.pairwise_cons.mp hpair with ⟨hhead, htail⟩
      rw [List.flatten_cons, dedupById_append]
      have h1 : dedupById seen c = c :=
        dedupById_of_disjoint c seen (hnd c (by simp))
          (hfresh c (by simp))
      have h2 : dedupById (seenAfter seen c) rest.flatten = rest.flatten := by
        refine ih (seenAfter seen c)
          (fun c' hc' => hnd c' (List.mem_cons_of_mem _ hc')) htail ?_
        intro c' hc' e he hmem
        rcases (seenAfter_mem c seen e.id).mp hmem with hs | hc
        · exact hfresh c' (List.mem_cons_of_mem _ hc') e he hs
        · rcases List.mem_map.mp hc with ⟨e1, he1, heq⟩
          exact hhead c' hc' e1 he1 e he heq
      rw [h1, h2]

/-- C3: the queryRelays merge equals first-occurrence-wins
deduplication by event id over the per-peer contributions in peer
order; its result never repeats an id; and when the per-peer record
sets are pairwise disjoint by id (and internally duplicate-free, as
sets are), the merged size is the sum of the contributed sizes — in
particular the K reachable peers of N contribute their full disjoint
sets while unreachable peers contribute zero records. -/
theorem queryRelays_dedup_merge (verify : NEvent → Bool) (subId : String)
    (peers : List (Option (List RelayMsg))) :
    queryRelays verify subId peers
        = dedupById [] ((peers.map (queryRelay verify subId)).flatten) ∧
    ((queryRelays verify subId peers).map NEvent.id).Nodup ∧
    ((∀ c ∈ peers.map (queryRelay verify subId), (c.map NEvent.id).Nodup) →
      List.Pairwise (fun c1 c2 => ∀ e1 ∈ c1, ∀ e2 ∈ c2, e1.id ≠ e2.id)
        (peers.map (queryRelay verify subId)) →
      (queryRelays verify subId peers).length
        = ((peers.map (queryRelay verify subId)).map List.length).sum) := by
  refine ⟨queryRelays_eq_dedup verify subId peers, ?_, ?_⟩
  · rw [queryRelays_eq_dedup verify subId peers]
    exact (dedupById_ids_nodup _ []).1
  · intro hnd hpair
    rw [queryRelays_eq_dedup verify subId peers,
      dedupById_flatten_disjoint _ [] hnd hpair (by simp),
      List.length_flatten]

/-- Witness for C3 at a concrete input: two reachable peers with
disjoint single-event answers and one unreachable peer merge to a
result whose size is the sum of the two contributions. -/
theorem queryRelays_dedup_merge_witness :
    (queryRelays (fun _ => true) "s"
        [some [RelayMsg.evt "s" evA, RelayMsg.eose "s"], none,
         some [RelayMsg.evt "s" evB]]).length
      = (([some [RelayMsg.evt "s" evA, RelayMsg.eose "s"], none,
          some [RelayMsg.evt "s" evB]].map
            (queryRelay (fun _ => true) "s")).map List.length).sum :=
  (queryRelays_dedup_merge (fun _ => true) "s"
      [some [RelayMsg.evt "s" evA, RelayMsg.eose "s"], none,
       some [RelayMsg.evt "s" evB]]).2.2
    (by decide) (by decide)

/-- C5: a peer whose connection attempt fails contributes zero
records, and querying with every peer unreachable returns the empty
sequence; both functions are total, so no error value or exception is
involved. -/
theorem queryRelay_unreachable_empty (verify : NEvent → Bool) (subId : String) :
    queryRelay verify subId none = [] ∧
    ∀ peers : List (Option (List RelayMsg)),
      (∀ p ∈ peers, p = none) → queryRelays verify subId peers = [] := by
  refine ⟨rfl, ?_⟩
  intro peers hall
  rw [queryRelays_eq_dedup]
  have hflat : (peers.map (queryRelay verify subId)).flatten = [] := by
    rw [List.flatten_eq_nil_iff]
    intro c hc
    rcases List.mem_map.mp hc with ⟨p, hp, rfl⟩
    rw [hall p hp]
    rfl
  rw [hflat]
  rfl

/-- Witness for C5 at a concrete input: two unreachable peers yield
the empty sequence. -/
theorem queryRelay_unreachable_empty_witness :
    queryRelays (fun _ => true) "s" [none, none] = [] :=
  (queryRelay_unreachable_empty (fun _ => true) "s").2 [none, none] (by decide)

/-! ### Trust scoring: C2, C8 and C10 -/

theorem extractType_mkAttestation (a c t : String) :
    extractType (mkAttestation a c t).tags = some c := by
  simp [mkAttestation, extractType, WOT_NAMESPACE]

/-- C2: on the four-attestation list of the specification (three
distinct attesters with service-quality, general-trust and
work-completed claims, plus a self-attestation by the target), the
self-attestation is excluded, the score is round(1.5*10 + 0.8*10 +
1.2*10) = 35, and three attesters are counted. -/
theorem calculateTrustScore_example (A B C T : String)
    (hAB : A ≠ B) (hAC : A ≠ C) (hBC : B ≠ C)
    (hAT : A ≠ T) (hBT : B ≠ T) (hCT : C ≠ T) :
    (calculateTrustScore
        [mkAttestation A "service-quality" T, mkAttestation B "general-trust" T,
         mkAttestation C "work-completed" T, mkAttestation T "service-quality" T]
        T).score = 35 ∧
    (calculateTrustScore
        [mkAttestation A "service-quality" T, mkAttestation B "general-trust" T,
         mkAttestation C "work-completed" T, mkAttestation T "service-quality" T]
        T).attesters = 3 := by
  have hfold :
      ([mkAttestation A "service-quality" T, mkAttestation B "general-trust" T,
        mkAttestation C "work-completed" T,
        mkAttestation T "service-quality" T].foldl (trustStep T) [])
      = [(A, ⟨3/2, some "service-quality", 0⟩),
         (B, ⟨4/5, some "general-trust", 0⟩),
         (C, ⟨6/5, some "work-completed", 0⟩)] := by
    simp [trustStep, mkAttestation, extractType, attWeight, TRUST_WEIGHTS,
      WOT_NAMESPACE, mapGet, mapSet, hAB, hAC, hBC, hAT, hBT, hCT,
      Ne.symm hAB, Ne.symm hAC, Ne.symm hBC]
  constructor
  · simp only [calculateTrustScore, hfold, List.map_cons, List.map_nil,
      List.sum_cons, List.sum_nil]
    norm_num [jsRound]
  · simp [calculateTrustScore, hfold]

/-- Witness for C2 at concrete pairwise-distinct identities. -/
theorem calculateTrustScore_example_witness :
    (calculateTrustScore
        [mkAttestation "a" "service-quality" "t", mkAttestation "b" "general-trust" "t",
         mkAttestation "c" "work-completed" "t", mkAttestation "t" "service-quality" "t"]
        "t").score = 35 ∧
    (calculateTrustScore
        [mkAttestation "a" "service-quality" "t", mkAttestation "b" "general-trust" "t",
         mkAttestation "c" "work-completed" "t", mkAttestation "t" "service-quality" "t"]
        "t").attesters = 3 :=
  calculateTrustScore_example "a" "b" "c" "t" (by decide) (by decide) (by decide)
    (by decide) (by decide) (by decide)

theorem trust_fold_char (target a : String) (ha : a ≠ target) :
    ∀ (atts : List NEvent) (m : List (String × AttInfo)),
      mapGet (atts.foldl (trustStep target) m) a
        = (atts.filter (fun e => e.pubkey == a)).foldl entryStep (mapGet m a) := by
  intro atts
  induction atts with
  | nil => intro m; rfl
  | cons e rest ih =>
      intro m
      by_cases htgt : e.pubkey = target
      · have hea : (e.pubkey == a) = false := by
          simp only [beq_eq_false_iff_ne, Ne]
          intro h
          exact ha (h ▸ htgt)
        have hskip : trustStep target m e = m := by
          simp [trustStep, htgt]
        simp [List.filter_cons, hea, hskip, ih]
      · by_cases hpa : e.pubkey = a
        · have hea : (e.pubkey == a) = true := by simp [hpa]
          have hga : mapGet m a = mapGet m e.pubkey := by rw [hpa]
          have hstep : mapGet (trustStep target m e) a = entryStep (mapGet m a) e := by
            simp only [trustStep, if_neg htgt]
            cases hg : mapGet m e.pubkey with
            | none =>
                simp only [hg, hga, entryStep]
                rw [hpa, mapGet_mapSet_self]
            | some ex =>
                simp only [hg, hga, entryStep]
                by_cases hlt : ex.weight < attWeight e.tags
                · rw [if_pos hlt, if_pos hlt, hpa, mapGet_mapSet_self]
                · rw [if_neg hlt, if_neg hlt, hga, hg]
          simp [List.filter_cons, hea, ih, hstep]
        · have hea : (e.pubkey == a) = false := by simp [hpa]
          have hstep : mapGet (trustStep target m e) a = mapGet m a := by
            simp only [trustStep, if_neg htgt]
            cases hg : mapGet m e.pubkey with
            | none =>
                simp only [hg]
                exact mapGet_mapSet_ne m _ (fun h => hpa h.symm)
            | some ex =>
                simp only [hg]
                by_cases hlt : ex.weight < attWeight e.tags
                · rw [if_pos hlt]
                  exact mapGet_mapSet_ne m _ (fun h => hpa h.symm)
                · rw [if_neg hlt]
          simp [List.filter_cons, hea, ih, hstep]

theorem jmax_nil (o : Option ℚ) : jmax o [] = o := rfl

theorem jmax_cons (o : Option ℚ) (w : ℚ) (ws : List ℚ) :
    jmax o (w :: ws)
      = jmax
          (match o with
           | none => some w
           | some x => if x < w then some w else some x) ws := rfl

theorem entry_step_weight (acc : Option AttInfo) (e : NEvent) :
    (entryStep acc e).map AttInfo.weight
      = match acc.map AttInfo.weight with
        | none => some (attWeight e.tags)
        | some x => if x < attWeight e.tags then some (attWeight e.tags) else some x := by
  cases acc with
  | none => rfl
  | some ex =>
      by_cases hlt : ex.weight < attWeight e.tags
      · simp [entryStep, hlt]
      · simp [entryStep, hlt]

theorem entry_fold_weight :
    ∀ (l : List NEvent) (acc : Option AttInfo),
      (l.foldl entryStep acc).map AttInfo.weight
        = jmax (acc.map AttInfo.weight) (l.map (fun e => attWeight e.tags)) := by
  intro l
  induction l with
  | nil => intro acc; rfl
  | cons e rest ih =>
      intro acc
      rw [List.foldl_cons, ih, List.map_cons, jmax_cons, entry_step_weight]

theorem jmax_some_char :
    ∀ (ws : List ℚ) (x : ℚ),
      ∃ z, jmax (some x) ws = some z ∧ (z = x ∨ z ∈ ws) ∧ x ≤ z ∧
        ∀ y ∈ ws, y ≤ z := by
  intro ws
  induction ws with
  | nil => intro x; exact ⟨x, rfl, Or.inl rfl, le_refl x, by simp⟩
  | cons w rest ih =>
      intro x
      by_cases hlt : x < w
      · obtain ⟨z, hz, hmem, hle, hmax⟩ := ih w
        refine ⟨z, ?_, ?_, le_of_lt (lt_of_lt_of_le hlt hle), ?_⟩
        · simpa [jmax, hlt] using hz
        · rcases hmem with rfl | hmem
          · exact Or.inr (by simp)
          · exact Or.inr (List.mem_cons_of_mem _ hmem)
        · intro y hy
          rcases List.mem_cons.mp hy with rfl | hy'
          · exact hle
          · exact hmax y hy'
      · obtain ⟨z, hz, hmem, hle, hmax⟩ := ih x
        refine ⟨z, ?_, ?_, hle, ?_⟩
        · simpa [jmax, hlt] using hz
        · rcases hmem with rfl | hmem
          · exact Or.inl rfl
          · exact Or.inr (List.mem_cons_of_mem _ hmem)
        · intro y hy
          rcases List.mem_cons.mp hy with rfl | hy'
          · exact le_trans (not_lt.mp hlt) hle
          · exact hmax y hy'

theorem jmax_none_char (ws : List ℚ) (h : ws ≠ []) :
    ∃ z, jmax none ws = some z ∧ z ∈ ws ∧ ∀ y ∈ ws, y ≤ z := by
  cases ws with
  | nil => exact absurd rfl h
  | cons w rest =>
      obtain ⟨z, hz, hmem, hle, hmax⟩ := jmax_some_char rest w
      refine ⟨z, by simpa [jmax] using hz, ?_, ?_⟩
      · rcases hmem with rfl | hmem
        · simp
        · exact List.mem_cons_of_mem _ hmem
      · intro y hy
        rcases List.mem_cons.mp hy with rfl | hy'
        · exact hle
        · exact hmax y hy'

theorem jmax_perm {ws ws' : List ℚ} (hp : ws.Perm ws') :
    jmax none ws = jmax none ws' := by
  by_cases h : ws = []
  · subst h
    rw [hp.nil_eq.symm]
  · have h' : ws' ≠ [] := by
      intro hc
      exact h (List.Perm.eq_nil (hc ▸ hp))
    obtain ⟨z, hz, hmem, hmax⟩ := jmax_none_char ws h
    obtain ⟨z', hz', hmem', hmax'⟩ := jmax_none_char ws' h'
    have h1 : z ≤ z' := hmax' z (hp.mem_iff.mp hmem)
    have h2 : z' ≤ z := hmax z' (hp.mem_iff.mpr hmem')
    rw [hz, hz', le_antisymm h1 h2]

theorem trust_fold_keys_nodup (target : String) :
    ∀ (atts : List NEvent) (m : List (String × AttInfo)),
      (m.map Prod.fst).Nodup →
      ((atts.foldl (trustStep target) m).map Prod.fst).Nodup := by
  intro atts
  induction atts with
  | nil => intro m h; exact h
  | cons e rest ih =>
      intro m h
      refine ih (trustStep target m e) ?_
      by_cases htgt : e.pubkey = target
      · simpa [trustStep, htgt] using h
      · simp only [trustStep, if_neg htgt]
        cases hg : mapGet m e.pubkey with
        | none => exact nodup_keys_mapSet m _ _ h
        | some ex =>
            simp only []
            by_cases hlt : ex.weight < attWeight e.tags
            · rw [if_pos hlt]
              exact nodup_keys_mapSet m _ _ h
            · rw [if_neg hlt]
              exact h

theorem trust_fold_target_none (target : String) :
    ∀ (atts : List NEvent) (m : List (String × AttInfo)),
      mapGet m target = none →
      mapGet (atts.foldl (trustStep target) m) target = none := by
  intro atts
  induction atts with
  | nil => intro m h; exact h
  | cons e rest ih =>
      intro m h
      refine ih (trustStep target m e) ?_
      by_cases htgt : e.pubkey = target
      · simpa [trustStep, htgt] using h
      · simp only [trustStep, if_neg htgt]
        cases hg : mapGet m e.pubkey with
        | none =>
            simp only []
            rw [mapGet_mapSet_ne m _ (fun hc => htgt hc.symm)]
            exact h
        | some ex =>
            simp only []
            by_cases hlt : ex.weight < attWeight e.tags
            · rw [if_pos hlt, mapGet_mapSet_ne m _ (fun hc => htgt hc.symm)]
              exact h
            · rw [if_neg hlt]
              exact h

/-- C8: the weight calculateTrustScore retains for an attester (other
than the target) is the maximum of the weights of all of that
attester's attestations; a list maximum is order-independent, so in
particular a lower-weight attestation arriving after a higher-weight
one from the same attester never replaces it. -/
theorem calculateTrustScore_keeps_max_weight (atts : List NEvent) (target a : String)
    (ha : a ≠ target) (he : ∃ e ∈ atts, e.pubkey = a) :
    ∃ d ∈ (calculateTrustScore atts target).details, d.pubkey = a ∧
      d.weight ∈ (atts.filter (fun e => e.pubkey == a)).map (fun e => attWeight e.tags) ∧
      ∀ w ∈ (atts.filter (fun e => e.pubkey == a)).map (fun e => attWeight e.tags),
        w ≤ d.weight := by
  have hchar := trust_fold_char target a ha atts []
  have hweight := entry_fold_weight (atts.filter (fun e => e.pubkey == a)) none
  have hne : (atts.filter (fun e => e.pubkey == a)).map (fun e => attWeight e.tags) ≠ [] := by
    obtain ⟨e, hmem, hpk⟩ := he
    have : e ∈ atts.filter (fun e => e.pubkey == a) :=
      List.mem_filter.mpr ⟨hmem, by simp [hpk]⟩
    intro hc
    rw [List.map_eq_nil_iff] at hc
    rw [hc] at this
    exact List.not_mem_nil e this
  obtain ⟨z, hz, hzmem, hzmax⟩ := jmax_none_char _ hne
  have hmget : (mapGet (atts.foldl (trustStep target) []) a).map AttInfo.weight = some z := by
    rw [hchar]
    show ((atts.filter (fun e => e.pubkey == a)).foldl entryStep (mapGet ([] : List (String × AttInfo)) a)).map AttInfo.weight = some z
    rw [show mapGet ([] : List (String × AttInfo)) a = none from rfl, hweight]
    rw [show (none : Option AttInfo).map AttInfo.weight = none from rfl]
    exact hz
  obtain ⟨info, hinfo, hwz⟩ := Option.map_eq_some'.mp hmget
  refine ⟨⟨a, info.type, info.weight⟩, ?_, rfl, hwz ▸ hzmem, ?_⟩
  · show _ ∈ (calculateTrustScore atts target).details
    simp only [calculateTrustScore]
    exact List.mem_map.mpr ⟨(a, info), mem_of_mapGet hinfo, rfl⟩
  · intro w hw
    exact hwz ▸ hzmax w hw

/-- Witness for C8 at a concrete input: a lower-weight general-trust
attestation arriving after a service-quality one from the same
attester leaves the 1.5 weight retained. -/
theorem calculateTrustScore_keeps_max_weight_witness :
    ∃ d ∈ (calculateTrustScore
        [mkAttestation "a" "service-quality" "t", mkAttestation "a" "general-trust" "t"]
        "t").details, d.pubkey = "a" ∧
      d.weight ∈ ([mkAttestation "a" "service-quality" "t",
          mkAttestation "a" "general-trust" "t"].filter
            (fun e => e.pubkey == "a")).map (fun e => attWeight e.tags) ∧
      ∀ w ∈ ([mkAttestation "a" "service-quality" "t",
          mkAttestation "a" "general-trust" "t"].filter
            (fun e => e.pubkey == "a")).map (fun e => attWeight e.tags),
        w ≤ d.weight :=
  calculateTrustScore_keeps_max_weight
    [mkAttestation "a" "service-quality" "t", mkAttestation "a" "general-trust" "t"]
    "t" "a" (by decide) ⟨mkAttestation "a" "service-quality" "t", by decide, rfl⟩

theorem trust_weight_char (target a : String) (ha : a ≠ target) (atts : List NEvent) :
    (mapGet (atts.foldl (trustStep target) []) a).map AttInfo.weight
      = jmax none ((atts.filter (fun e => e.pubkey == a)).map (fun e => attWeight e.tags)) := by
  rw [trust_fold_char target a ha atts []]
  simpa using entry_fold_weight (atts.filter (fun e => e.pubkey == a)) none

theorem trust_mw_mem_mono (atts atts' : List NEvent) (target : String)
    (hp : atts.Perm atts') (q : String × ℚ)
    (hq : q ∈ (atts.foldl (trustStep target) []).map (fun p => (p.1, p.2.weight))) :
    q ∈ (atts'.foldl (trustStep target) []).map (fun p => (p.1, p.2.weight)) := by
  obtain ⟨p, hpmem, hpq⟩ := List.mem_map.mp hq
  have hnd := trust_fold_keys_nodup target atts [] (by simp)
  have hget : mapGet (atts.foldl (trustStep target) []) p.1 = some p.2 :=
    mapGet_of_mem hnd hpmem
  have hne : p.1 ≠ target := by
    intro hc
    have h0 := trust_fold_target_none target atts [] rfl
    rw [hc] at hget
    rw [hget] at h0
    cases h0
  have hw : (mapGet (atts.foldl (trustStep target) []) p.1).map AttInfo.weight
      = some p.2.weight := by
    rw [hget]
    rfl
  rw [trust_weight_char target p.1 hne atts] at hw
  have hperm :
      ((atts.filter (fun e => e.pubkey == p.1)).map (fun e => attWeight e.tags)).Perm
        ((atts'.filter (fun e => e.pubkey == p.1)).map (fun e => attWeight e.tags)) :=
    (hp.filter _).map _
  rw [jmax_perm hperm, ← trust_weight_char target p.1 hne atts'] at hw
  obtain ⟨info, hinfo, hwi⟩ := Option.map_eq_some'.mp hw
  refine List.mem_map.mpr ⟨(p.1, info), mem_of_mapGet hinfo, ?_⟩
  rw [← hpq]
  simp [hwi]

theorem trust_mw_perm (atts atts' : List NEvent) (target : String)
    (hp : atts.Perm atts') :
    ((atts.foldl (trustStep target) []).map (fun p => (p.1, p.2.weight))).Perm
      ((atts'.foldl (trustStep target) []).map (fun p => (p.1, p.2.weight))) := by
  have hnd := trust_fold_keys_nodup target atts [] (by simp)
  have hnd' := trust_fold_keys_nodup target atts' [] (by simp)
  have pnd : ((atts.foldl (trustStep target) []).map
      (fun p => (p.1, p.2.weight))).Nodup := by
    refine List.Nodup.of_map Prod.fst ?_
    rw [List.map_map]
    exact hnd
  have pnd' : ((atts'.foldl (trustStep target) []).map
      (fun p => (p.1, p.2.weight))).Nodup := by
    refine List.Nodup.of_map Prod.fst ?_
    rw [List.map_map]
    exact hnd'
  refine List.perm_of_nodup_nodup_toFinset_eq pnd pnd' ?_
  ext q
  simp only [List.mem_toFinset]
  exact ⟨trust_mw_mem_mono atts atts' target hp q,
    trust_mw_mem_mono atts' atts target hp.symm q⟩

/-- C10: the score and the attester count of calculateTrustScore are
invariant under any permutation of the attestation list (only the
per-attester detail's recorded claim type can depend on order, on
weight ties). -/
theorem calculateTrustScore_perm_invariant (atts atts' : List NEvent) (target : String)
    (hp : atts.Perm atts') :
    (calculateTrustScore atts target).score = (calculateTrustScore atts' target).score ∧
    (calculateTrustScore atts target).attesters
      = (calculateTrustScore atts' target).attesters := by
  have hperm := trust_mw_perm atts atts' target hp
  constructor
  · simp only [calculateTrustScore]
    have h1 : (atts.foldl (trustStep target) []).map (fun p => p.2.weight * 10)
        = ((atts.foldl (trustStep target) []).map
            (fun p => (p.1, p.2.weight))).map (fun q => q.2 * 10) := by
      rw [List.map_map]
      rfl
    have h2 : (atts'.foldl (trustStep target) []).map (fun p => p.2.weight * 10)
        = ((atts'.foldl (trustStep target) []).map
            (fun p => (p.1, p.2.weight))).map (fun q => q.2 * 10) := by
      rw [List.map_map]
      rfl
    rw [h1, h2, (hperm.map (fun q => q.2 * 10)).sum_eq]
  · simp only [calculateTrustScore]
    have h1 : (atts.foldl (trustStep target) []).length
        = ((atts.foldl (trustStep target) []).map
            (fun p => (p.1, p.2.weight))).length := (List.length_map _ _).symm
    have h2 : (atts'.foldl (trustStep target) []).length
        = ((atts'.foldl (trustStep target) []).map
            (fun p => (p.1, p.2.weight))).length := (List.length_map _ _).symm
    rw [h1, h2, hperm.length_eq]

/-- Witness for C10 at a concrete input: swapping two attestations
changes neither the score nor the attester count. -/
theorem calculateTrustScore_perm_invariant_witness :
    (calculateTrustScore
        [mkAttestation "a" "service-quality" "t", mkAttestation "b" "general-trust" "t"]
        "t").score
      = (calculateTrustScore
          [mkAttestation "b" "general-trust" "t", mkAttestation "a" "service-quality" "t"]
          "t").score ∧
    (calculateTrustScore
        [mkAttestation "a" "service-quality" "t", mkAttestation "b" "general-trust" "t"]
        "t").attesters
      = (calculateTrustScore
          [mkAttestation "b" "general-trust" "t", mkAttestation "a" "service-quality" "t"]
          "t").attesters :=
  calculateTrustScore_perm_invariant
    [mkAttestation "a" "service-quality" "t", mkAttestation "b" "general-trust" "t"]
    [mkAttestation "b" "general-trust" "t", mkAttestation "a" "service-quality" "t"]
    "t"
    (List.Perm.swap (mkAttestation "b" "general-trust" "t")
      (mkAttestation "a" "service-quality" "t") [])

/-! ### Trust enrichment: C7 -/

theorem mapGet_buildTrustMap_none (fetch : String → Option (List NEvent)) (pk : String)
    (hf : fetch pk = none) (pks : List String) :
    mapGet (buildTrustMap fetch pks) pk = none := by
  suffices h : ∀ (l : List String) (m : List (String × TrustScore)),
      mapGet m pk = none →
      mapGet (l.foldl
        (fun m' pk' =>
          match fetch pk' with
          | none => m'
          | some atts => mapSet m' pk' (calculateTrustScore atts pk')) m) pk = none by
    exact h pks [] rfl
  intro l
  induction l with
  | nil => intro m hm; exact hm
  | cons x rest ih =>
      intro m hm
      refine ih _ ?_
      cases hx : fetch x with
      | none => simpa [hx] using hm
      | some atts =>
          simp only [hx]
          have hxpk : pk ≠ x := by
            intro hc
            rw [hc, hx] at hf
            cases hf
          rw [mapGet_mapSet_ne m _ hxpk]
          exact hm

/-- C7: trust enrichment keeps every input target (same length, same
services, in order) and attaches the zero trust score to every owner
whose attestation fetch failed entirely, rather than omitting the
target or aborting. -/
theorem enrichWithTrust_defaults (fetch : String → Option (List NEvent))
    (services : List Service) :
    ((enrichWithTrust fetch services).map (fun p => p.service) = services) ∧
    (enrichWithTrust fetch services).length = services.length ∧
    ∀ p ∈ enrichWithTrust fetch services,
      fetch p.service.pubkey = none → p.trust = zeroTrust := by
  refine ⟨?_, ?_, ?_⟩
  · simp only [enrichWithTrust, List.map_map]
    exact List.map_id services
  · simp [enrichWithTrust]
  · intro p hp hf
    simp only [enrichWithTrust, List.mem_map] at hp
    obtain ⟨s, hs, rfl⟩ := hp
    have hnone :
        mapGet (buildTrustMap fetch (dedupStrings (services.map (fun s => s.pubkey))))
          s.pubkey = none :=
      mapGet_buildTrustMap_none fetch s.pubkey hf _
    simp [hnone]

/-- Witness for C7 at a concrete input: with every fetch failing, the
single service's attached trust is the zero score. -/
theorem enrichWithTrust_defaults_witness :
    ({ service := svcW3, trust := zeroTrust, trustScore := 0 } : EnrichedService).trust
      = zeroTrust :=
  (enrichWithTrust_defaults (fun _ => none) [svcW3]).2.2
    { service := svcW3, trust := zeroTrust, trustScore := 0 } (by decide) rfl

/-! ### Publish fan-out: C4 and C6 -/

/-- Counterexample to C4 as stated: after a successful connect, an OK
acknowledgment naming a different record identifier than the
published record still resolves this peer's outcome (as an accept),
because the handler never compares the acknowledgment's event id with
the published record's id. -/
theorem publish_ack_uncorrelated_cex :
    evC4.id ≠ "other-record" ∧
    publishToRelay evC4 "relay-a" (PeerConn.conn [RelayMsg.ok "other-record" true none])
      = Except.ok () :=
  ⟨by decide, rfl⟩

theorem awaitOk_skips (url : String) :
    ∀ (pre : List RelayMsg), (∀ m ∈ pre, m.isOkMsg = false) →
      ∀ (tail : List RelayMsg), awaitOk url (pre ++ tail) = awaitOk url tail := by
  intro pre
  induction pre with
  | nil => intro _ tail; rfl
  | cons m pre' ih =>
      intro hpre tail
      have hm := hpre m (List.mem_cons_self _ _)
      have hrest : ∀ m' ∈ pre', m'.isOkMsg = false :=
        fun m' hm' => hpre m' (List.mem_cons_of_mem _ hm')
      cases m with
      | ok e a r => simp [RelayMsg.isOkMsg] at hm
      | evt s e =>
          simp only [List.cons_append, awaitOk]
          exact ih hrest tail
      | eose s =>
          simp only [List.cons_append, awaitOk]
          exact ih hrest tail
      | malformed =>
          simp only [List.cons_append, awaitOk]
          exact ih hrest tail

/-- C4 amended: after a successful connect, the first OK-typed
acknowledgment message resolves the peer's outcome regardless of
which record identifier it names — accept on a true flag, reject with
the relay-provided reason (or the default) on a false flag; non-OK
messages are skipped. The published record plays no role in selecting
the acknowledgment. -/
theorem publish_ack_first_ok (event : NEvent) (url : String) (pre : List RelayMsg)
    (hpre : ∀ m ∈ pre, m.isOkMsg = false)
    (eid : String) (acc : Bool) (r : Option String) (rest : List RelayMsg) :
    publishToRelay event url (PeerConn.conn (pre ++ RelayMsg.ok eid acc r :: rest))
      = if acc then Except.ok () else Except.error (jsOrStr r "Rejected by relay") := by
  show awaitOk url (pre ++ RelayMsg.ok eid acc r :: rest) = _
  rw [awaitOk_skips url pre hpre]
  rfl

/-- Witness for C4's amended theorem at a concrete input: a rejecting
OK naming an unrelated record id, arriving after a non-OK message,
resolves the peer's outcome with the relay reason. -/
theorem publish_ack_first_ok_witness :
    publishToRelay evC4 "relay-a"
        (PeerConn.conn [RelayMsg.eose "s", RelayMsg.ok "unrelated" false (some "dup"),
          RelayMsg.ok "x" true none])
      = Except.error "dup" := by
  have h := publish_ack_first_ok evC4 "relay-a" [RelayMsg.eose "s"] (by decide)
    "unrelated" false (some "dup") [RelayMsg.ok "x" true none]
  simpa [jsOrStr] using h

/-- C6: the publish fan-out is total (it never raises — every input
yields a PublishOutcome), its total always equals the number of
peers, and on the three-peer example (one accept, one reject with
reason duplicate, one that never acknowledges) the outcome has one
success, the relay-provided rejection reason followed by a timeout
reason, and total 3. -/
theorem publishToRelays_outcome :
    (∀ (event : NEvent) (peers : List (String × PeerConn)),
      (publishToRelays event peers).total = peers.length) ∧
    publishToRelays evPub
        [("relay-1", PeerConn.conn [RelayMsg.ok "x" true none]),
         ("relay-2", PeerConn.conn [RelayMsg.ok "x" false (some "duplicate")]),
         ("relay-3", PeerConn.conn [])]
      = { successes := 1, failures := ["duplicate", "Publish to relay-3 timed out"],
          total := 3 } := by
  constructor
  · intro event peers
    rfl
  · rfl

end AgentDiscovery
